import Mathlib

/-!
Shallow embedding of the inventory-tracker core (src/main.rs):
the line-to-record parser `fake_llm_parse` and the append-only CSV
ledger `append_items_to_csv`, together with theorems settling the
specification claims about them.

Rust strings are modelled as lists of characters.  The Rust standard
library primitives the source uses (`str::trim`, `str::lines`,
`str::split_whitespace`, `str::trim_end_matches`, `i32::from_str`,
`Display` for `i32`) are re-implemented below over `List Char`,
faithful to their documented behaviour on the character classes the
program manipulates (whitespace is modelled by `Char.isWhitespace`,
digits by `Char.isDigit`, matching Rust `char::is_ascii_digit`).
-/

namespace InventoryTracker

/-- A Rust string, modelled as its list of characters. -/
abbrev Str := List Char

/-- Rust `str::trim_start`: drop leading whitespace. -/
def trimLeft (s : Str) : Str := s.dropWhile Char.isWhitespace

/-- Rust `str::trim_end`: drop trailing whitespace. -/
def trimRight (s : Str) : Str := (s.reverse.dropWhile Char.isWhitespace).reverse

/-- Rust `str::trim` (the `.map(str::trim)` step of `fake_llm_parse`). -/
def trim (s : Str) : Str := trimRight (trimLeft s)

/-- Split a character list at every character satisfying `p`; the
separators are consumed and empty segments are kept (the behaviour of a
raw split, before any filtering). -/
def splitBy (p : Char → Bool) : Str → List Str
  | [] => [[]]
  | c :: cs =>
    match splitBy p cs with
    | [] => [[]]
    | r :: rs => if p c then [] :: r :: rs else (c :: r) :: rs

/-- Rust `str::lines` as used by `fake_llm_parse`: split the raw text on
newline boundaries.  (Rust drops a final empty segment and a trailing
`\r`; both differences are erased by the subsequent trim-and-filter
steps, so the simple split is an equivalent model of the pipeline.) -/
def splitOnNewline (s : Str) : List Str := splitBy (fun c => c = '\n') s

/-- Rust `str::split_whitespace`: whitespace-separated tokens, empty
segments skipped. -/
def splitWS (s : Str) : List Str :=
  (splitBy Char.isWhitespace s).filter (fun t => !t.isEmpty)

/-- Rust `Vec::join(" ")` on the collected tokens (`parts.collect::<Vec<_>>().join(" ")`). -/
def joinSpace : List Str → Str
  | [] => []
  | [t] => t
  | t :: u :: rest => t ++ ' ' :: joinSpace (u :: rest)

/-- Rust `first.trim_end_matches(|c: char| !c.is_ascii_digit())`: strip
trailing non-digit characters from a token. -/
def trimEndNonDigits (t : Str) : Str :=
  (t.reverse.dropWhile (fun c => !c.isDigit)).reverse

/-- Numeric value of a big-endian ASCII digit string. -/
def digitsToNat (ds : Str) : Nat :=
  ds.foldl (fun a c => a * 10 + (c.toNat - 48)) 0

/-- Digit-and-range phase of Rust `i32::from_str`, after the optional
sign has been consumed: the remaining characters must be a non-empty
run of ASCII digits whose signed value fits in 32 bits. -/
def parseDigitsSigned (sgn : Bool) (ds : Str) : Option Int :=
  if ds = [] then none
  else if ds.all Char.isDigit then
    let v : Int := if sgn then -(digitsToNat ds : Int) else (digitsToNat ds : Int)
    if -2147483648 ≤ v ∧ v ≤ 2147483647 then some v else none
  else none

/-- Rust `str::parse::<i32>` (`i32::from_str`): an optional leading
`+`/`-` sign followed by a non-empty run of ASCII digits, rejected on
32-bit overflow. -/
def parseI32 : Str → Option Int
  | [] => none
  | c :: rest =>
    if c = '-' then parseDigitsSigned true rest
    else if c = '+' then parseDigitsSigned false rest
    else parseDigitsSigned false (c :: rest)

/-- The `Item` struct of src/main.rs: `name: String`, `quantity: i32`.
The quantity is modelled as an unbounded integer; every quantity the
program constructs is proved to lie in the `i32` range. -/
structure Item where
  name : Str
  quantity : Int
deriving DecidableEq, Repr

/-- The per-line body of `fake_llm_parse` (the closure passed to the
final `.map`): try to parse a leading integer from the first
whitespace-separated token after stripping its trailing non-digit
characters; on success the remaining tokens joined by single spaces
become the name (falling back to the whole line when that is empty),
otherwise the quantity defaults to 1 and the name is the whole line. -/
def parseLine (line : Str) : Item :=
  match parseI32 (trimEndNonDigits ((splitWS line).headD [])) with
  | some qty =>
    { name := if joinSpace (splitWS line).tail = [] then line
              else joinSpace (splitWS line).tail,
      quantity := qty }
  | none => { name := line, quantity := 1 }

/-- `fake_llm_parse` of src/main.rs: split the raw text into lines, trim
each line, drop the lines that are empty after trimming, and convert
each surviving line to an `Item`. -/
def fakeLlmParse (raw : Str) : List Item :=
  (((splitOnNewline raw).map trim).filter (fun l => !l.isEmpty)).map parseLine

/-- Decimal rendering of a natural number, as Rust `Display` prints the
magnitude of an `i32`. -/
def natToStr (n : Nat) : Str :=
  if n = 0 then ['0'] else ((Nat.digits 10 n).map Nat.digitChar).reverse

/-- Rust `Display` for `i32`: a `-` sign for negative values followed by
the decimal magnitude. -/
def intToStr (i : Int) : Str :=
  if i < 0 then '-' :: natToStr i.natAbs else natToStr i.toNat

/-- One CSV line as written by `writeln!(file, "{},{}", item.quantity, item.name)`:
the quantity, a comma, the name. -/
def serializeItem (it : Item) : Str := intToStr it.quantity ++ ',' :: it.name

/-- `append_items_to_csv` of src/main.rs, successful path.  The store is
modelled as the list of lines already persisted; opening with
`create(true).append(true)` means a missing store starts as `[]` and an
existing store is extended strictly at the end, one line per item, in
item order. -/
def appendItemsToCsv (store : List Str) (items : List Item) : List Str :=
  store ++ items.map serializeItem

/-- The error taxonomy of the ledger: `std::io::Error` surfaced as the
spec name `IOFailure`. -/
inductive LedgerError where
  | ioFailure
deriving DecidableEq, Repr

/-- `append_items_to_csv` including its fallible signature
(`std::io::Result<()>`): the `ok` flag models whether the underlying
`open`/`write` calls succeed. -/
def appendItemsToCsvIO (ok : Bool) (store : List Str) (items : List Item) :
    Except LedgerError (List Str) :=
  if ok then .ok (appendItemsToCsv store items) else .error .ioFailure

/-- `handle_submit` of src/main.rs, at the granularity the claims need:
parse the submitted text, attempt the CSV append, and on `Err` merely
log and continue — the parsed items are rendered to the caller either
way.  Returns the resulting store and the item list rendered in the
confirmation page. -/
def handleSubmit (ok : Bool) (store : List Str) (text : Str) :
    List Str × List Item :=
  let items := fakeLlmParse text
  match appendItemsToCsvIO ok store items with
  | .ok s => (s, items)
  | .error _ => (store, items)

/-- Splitting a persisted CSV line back into the part before the first
comma and the part after it (the `<quantity><delimiter><name>` reading
of the round-trip property). -/
def splitFirstComma : Str → Option (Str × Str)
  | [] => none
  | c :: cs =>
    if c = ',' then some ([], cs)
    else
      match splitFirstComma cs with
      | none => none
      | some (a, b) => some (c :: a, b)

/-- Deserialize one persisted line as `<quantity><delimiter><name>`:
split at the first comma and parse the quantity field back as an `i32`. -/
def deserializeLine (line : Str) : Option (Int × Str) :=
  match splitFirstComma line with
  | none => none
  | some (qf, nm) =>
    match parseI32 qf with
    | none => none
    | some q => some (q, nm)

/-- The spec's description (§4.1 steps 1–2) of the lines that survive
normalization: drop the lines that consist only of whitespace, trim the
rest, preserving order. -/
def specSurvivingLines (raw : Str) : List Str :=
  ((splitOnNewline raw).filter (fun l => !(l.all Char.isWhitespace))).map trim

/-! ## Token-level helper lemmas -/

theorem mem_splitWS_ne_nil {s t : Str} (h : t ∈ splitWS s) : t ≠ [] := by
  intro he
  have hb := (List.mem_filter.1 h).2
  rw [he] at hb
  simp at hb

theorem joinSpace_ne_nil {t : Str} (ht : t ≠ []) (ts : List Str) :
    joinSpace (t :: ts) ≠ [] := by
  cases ts with
  | nil => simpa [joinSpace] using ht
  | cons u us => simp [joinSpace, List.append_eq_nil]

/-- C1: for every non-empty trimmed input line whose first
whitespace-separated token, after stripping trailing non-digit
characters, parses as an `i32`, and which has at least one further
token, the parser produces a record with that integer as quantity and
the remaining tokens joined by single spaces as name. -/
theorem parse_leading_quantity (line : Str) (q : Int)
    (htrim : trim line = line) (hne : line ≠ [])
    (hq : parseI32 (trimEndNonDigits ((splitWS line).headD [])) = some q)
    (htail : (splitWS line).tail ≠ []) :
    parseLine line = ⟨joinSpace ((splitWS line).tail), q⟩ := by
  have hname : joinSpace ((splitWS line).tail) ≠ [] := by
    obtain ⟨t, ts, hts⟩ : ∃ t ts, (splitWS line).tail = t :: ts := by
      cases h : (splitWS line).tail with
      | nil => exact absurd h htail
      | cons t ts => exact ⟨t, ts, rfl⟩
    rw [hts]
    exact joinSpace_ne_nil
      (mem_splitWS_ne_nil (List.mem_of_mem_tail (hts ▸ List.mem_cons_self t ts))) ts
  unfold parseLine
  rw [hq]
  simp [hname]

theorem parse_leading_quantity_witness :
    trim ['3', ' ', 'b', 'o', 'x'] = ['3', ' ', 'b', 'o', 'x'] ∧
    ['3', ' ', 'b', 'o', 'x'] ≠ ([] : Str) ∧
    parseI32 (trimEndNonDigits ((splitWS ['3', ' ', 'b', 'o', 'x']).headD [])) = some 3 ∧
    (splitWS ['3', ' ', 'b', 'o', 'x']).tail ≠ [] ∧
    parseLine ['3', ' ', 'b', 'o', 'x'] = ⟨joinSpace ((splitWS ['3', ' ', 'b', 'o', 'x']).tail), 3⟩ :=
  ⟨by decide, by decide, by decide, by decide,
    parse_leading_quantity ['3', ' ', 'b', 'o', 'x'] 3
      (by decide) (by decide) (by decide) (by decide)⟩

/-- C5: for every trimmed non-empty input line whose first token, after
stripping trailing non-digit characters, does not parse as an `i32`,
the parser produces quantity 1 and the full trimmed line as name. -/
theorem parse_no_leading_int (line : Str)
    (htrim : trim line = line) (hne : line ≠ [])
    (hq : parseI32 (trimEndNonDigits ((splitWS line).headD [])) = none) :
    parseLine line = ⟨line, 1⟩ := by
  unfold parseLine
  rw [hq]

theorem parse_no_leading_int_witness :
    trim ['h', 'a', 'm', 'm', 'e', 'r'] = ['h', 'a', 'm', 'm', 'e', 'r'] ∧
    ['h', 'a', 'm', 'm', 'e', 'r'] ≠ ([] : Str) ∧
    parseI32 (trimEndNonDigits ((splitWS ['h', 'a', 'm', 'm', 'e', 'r']).headD [])) = none ∧
    parseLine ['h', 'a', 'm', 'm', 'e', 'r'] = ⟨['h', 'a', 'm', 'm', 'e', 'r'], 1⟩ :=
  ⟨by decide, by decide, by decide,
    parse_no_leading_int ['h', 'a', 'm', 'm', 'e', 'r']
      (by decide) (by decide) (by decide)⟩

theorem parseLine_name_ne_nil (line : Str) (h : line ≠ []) :
    (parseLine line).name ≠ [] := by
  unfold parseLine
  cases hp : parseI32 (trimEndNonDigits ((splitWS line).headD [])) with
  | none => exact h
  | some q =>
    by_cases hn : joinSpace (splitWS line).tail = []
    · simpa [hn] using h
    · simp [hn]

/-- C7: for every input text and every record produced by the parser,
the record's name is never the empty string: whenever extraction would
produce an empty name, the whole trimmed input line is used instead. -/
theorem parse_name_never_empty (raw : Str) (it : Item)
    (h : it ∈ fakeLlmParse raw) : it.name ≠ [] := by
  unfold fakeLlmParse at h
  obtain ⟨line, hline, rfl⟩ := List.mem_map.1 h
  refine parseLine_name_ne_nil line ?_
  have hb := (List.mem_filter.1 hline).2
  intro he
  rw [he] at hb
  simp at hb

theorem parse_name_never_empty_witness :
    (⟨['h'], 1⟩ : Item) ∈ fakeLlmParse ['h'] ∧ (Item.mk ['h'] 1).name ≠ [] :=
  ⟨by decide, parse_name_never_empty ['h'] ⟨['h'], 1⟩ (by decide)⟩

/-! ## Quantity range facts -/

theorem parseDigitsSigned_range {sgn : Bool} {ds : Str} {v : Int}
    (h : parseDigitsSigned sgn ds = some v) :
    -2147483648 ≤ v ∧ v ≤ 2147483647 := by
  simp only [parseDigitsSigned] at h
  split_ifs at h
  all_goals
    first
      | (rw [Option.some.injEq] at h; subst h; assumption)
      | simp at h

theorem parseI32_range {t : Str} {v : Int} (h : parseI32 t = some v) :
    -2147483648 ≤ v ∧ v ≤ 2147483647 := by
  cases t with
  | nil => simp [parseI32] at h
  | cons c rest =>
    simp only [parseI32] at h
    split_ifs at h <;> exact parseDigitsSigned_range h

/-- C3 counterexample: the input line `-3 nails` produces a record whose
quantity is the negative integer `-3`, so a quantity produced by the
parser is not always `≥ 0` (Rust `i32` parsing accepts the leading minus
sign that trailing-non-digit stripping leaves in place). -/
theorem quantity_nonneg_counterexample :
    fakeLlmParse ['-', '3', ' ', 'n', 'a', 'i', 'l', 's']
      = [⟨['n', 'a', 'i', 'l', 's'], -3⟩] ∧
    ∃ it ∈ fakeLlmParse ['-', '3', ' ', 'n', 'a', 'i', 'l', 's'], it.quantity < 0 := by
  decide

/-- C3 (amended): every record produced by the parser has a quantity in
the signed 32-bit range (it may be negative, e.g. for a leading `-3`
token), and the quantity is exactly 1 whenever the first token, after
stripping trailing non-digit characters, does not parse as an `i32`. -/
theorem quantity_range_and_default :
    (∀ (raw : Str), ∀ it ∈ fakeLlmParse raw,
      -2147483648 ≤ it.quantity ∧ it.quantity ≤ 2147483647) ∧
    (∀ line : Str,
      parseI32 (trimEndNonDigits ((splitWS line).headD [])) = none →
      (parseLine line).quantity = 1) := by
  constructor
  · intro raw it h
    unfold fakeLlmParse at h
    obtain ⟨line, hline, rfl⟩ := List.mem_map.1 h
    unfold parseLine
    cases hp : parseI32 (trimEndNonDigits ((splitWS line).headD [])) with
    | none =>
      show (-2147483648 : Int) ≤ 1 ∧ (1 : Int) ≤ 2147483647
      exact ⟨by norm_num, by norm_num⟩
    | some q => exact parseI32_range hp
  · intro line hp
    unfold parseLine
    rw [hp]

theorem quantity_range_and_default_witness :
    ((⟨['a'], 2⟩ : Item) ∈ fakeLlmParse ['2', ' ', 'a'] ∧
      -2147483648 ≤ (Item.mk ['a'] 2).quantity ∧
      (Item.mk ['a'] 2).quantity ≤ 2147483647) ∧
    (parseI32 (trimEndNonDigits ((splitWS ['h']).headD [])) = none ∧
      (parseLine ['h']).quantity = 1) :=
  ⟨⟨by decide, quantity_range_and_default.1 ['2', ' ', 'a'] ⟨['a'], 2⟩ (by decide)⟩,
   ⟨by decide, quantity_range_and_default.2 ['h'] (by decide)⟩⟩

/-! ## Digit-string lemmas -/

theorem digit_not_ws {c : Char} (h : c.isDigit = true) : c.isWhitespace = false := by
  by_contra hne
  rw [Bool.not_eq_false] at hne
  simp only [Char.isWhitespace, Bool.or_eq_true, decide_eq_true_eq] at hne
  rcases hne with ((rfl | rfl) | rfl) | rfl <;> exact absurd h (by decide)

theorem digit_ne_sign {c : Char} (h : c.isDigit = true) : c ≠ '-' ∧ c ≠ '+' := by
  constructor <;> (intro e; rw [e] at h; exact absurd h (by decide))

theorem splitBy_no_match {p : Char → Bool} {l : Str} (h : ∀ c ∈ l, p c = false) :
    splitBy p l = [l] := by
  induction l with
  | nil => rfl
  | cons c cs ih =>
    have hc := h c (List.mem_cons_self c cs)
    have ihh := ih (fun d hd => h d (List.mem_cons_of_mem c hd))
    simp [splitBy, ihh, hc]

theorem dropWhile_no_match {p : Char → Bool} {l : Str} (h : ∀ c ∈ l, p c = false) :
    l.dropWhile p = l := by
  cases l with
  | nil => rfl
  | cons c cs =>
    rw [List.dropWhile_cons, h c (List.mem_cons_self c cs)]
    simp

theorem splitWS_single {line : Str} (h1 : line ≠ []) (h2 : line.all Char.isDigit = true) :
    splitWS line = [line] := by
  unfold splitWS
  rw [splitBy_no_match (fun c hc => digit_not_ws (List.all_eq_true.1 h2 c hc))]
  cases line with
  | nil => exact absurd rfl h1
  | cons c cs => rfl

theorem trimEndNonDigits_all_digits {l : Str} (h : l.all Char.isDigit = true) :
    trimEndNonDigits l = l := by
  unfold trimEndNonDigits
  rw [dropWhile_no_match, List.reverse_reverse]
  intro c hc
  rw [List.all_eq_true.1 h c (List.mem_reverse.1 hc)]
  rfl

theorem parseDigitsSigned_false_digits {l : Str} (h1 : l ≠ [])
    (h2 : l.all Char.isDigit = true) (h3 : digitsToNat l ≤ 2147483647) :
    parseDigitsSigned false l = some (digitsToNat l : Int) := by
  unfold parseDigitsSigned
  rw [if_neg h1, if_pos h2]
  have hr : -2147483648 ≤ ((digitsToNat l : Int)) ∧ ((digitsToNat l : Int)) ≤ 2147483647 := by
    constructor <;> omega
  simp [hr]

theorem parseDigitsSigned_false_overflow {l : Str} (h1 : l ≠ [])
    (h2 : l.all Char.isDigit = true) (h3 : 2147483647 < digitsToNat l) :
    parseDigitsSigned false l = none := by
  unfold parseDigitsSigned
  rw [if_neg h1, if_pos h2]
  have hr : ¬(-2147483648 ≤ ((digitsToNat l : Int)) ∧ ((digitsToNat l : Int)) ≤ 2147483647) := by
    intro hcon
    omega
  simp [hr]
  exact fun _ => h3

theorem parseI32_all_digits {l : Str} (h1 : l ≠ []) (h2 : l.all Char.isDigit = true) :
    parseI32 l = parseDigitsSigned false l := by
  cases l with
  | nil => exact absurd rfl h1
  | cons c cs =>
    obtain ⟨hm, hp⟩ := digit_ne_sign (List.all_eq_true.1 h2 c (List.mem_cons_self c cs))
    simp only [parseI32, if_neg hm, if_neg hp]

/-- C6 counterexample: the purely numeric trimmed line of eleven nines
denotes 99999999999, which overflows `i32`, so the parser yields
quantity 1 for it instead of the denoted integer — the claim fails as
stated for this line. -/
theorem parse_pure_number_counterexample :
    ['9', '9', '9', '9', '9', '9', '9', '9', '9', '9', '9'].all Char.isDigit = true ∧
    digitsToNat ['9', '9', '9', '9', '9', '9', '9', '9', '9', '9', '9'] = 99999999999 ∧
    parseLine ['9', '9', '9', '9', '9', '9', '9', '9', '9', '9', '9']
      = ⟨['9', '9', '9', '9', '9', '9', '9', '9', '9', '9', '9'], 1⟩ ∧
    (parseLine ['9', '9', '9', '9', '9', '9', '9', '9', '9', '9', '9']).quantity
      ≠ (99999999999 : Int) := by
  decide

/-- C6 (amended): for every trimmed line that is purely numeric and
whose denoted value fits in `i32` (e.g. `42`), the parser produces a
record whose quantity is that integer and whose name is the entire
trimmed line itself (the fallback-to-full-line rule applies because no
tokens remain after the number). -/
theorem parse_pure_number (line : Str) (h1 : line ≠ [])
    (h2 : line.all Char.isDigit = true) (h3 : digitsToNat line ≤ 2147483647) :
    parseLine line = ⟨line, (digitsToNat line : Int)⟩ := by
  have hs : splitWS line = [line] := splitWS_single h1 h2
  unfold parseLine
  rw [hs]
  show (match parseI32 (trimEndNonDigits line) with
        | some qty =>
          { name := if joinSpace ([] : List Str) = [] then line else joinSpace [],
            quantity := qty }
        | none => { name := line, quantity := 1 }) = Item.mk line (digitsToNat line : Int)
  rw [trimEndNonDigits_all_digits h2, parseI32_all_digits h1 h2,
    parseDigitsSigned_false_digits h1 h2 h3]
  simp [joinSpace]

theorem parse_pure_number_witness :
    ['4', '2'] ≠ ([] : Str) ∧ ['4', '2'].all Char.isDigit = true ∧
    digitsToNat ['4', '2'] ≤ 2147483647 ∧
    parseLine ['4', '2'] = ⟨['4', '2'], (digitsToNat ['4', '2'] : Int)⟩ :=
  ⟨by decide, by decide, by decide,
    parse_pure_number ['4', '2'] (by decide) (by decide) (by decide)⟩

/-- C10: for every input line whose first token, after stripping
trailing non-digit characters, is a digit string denoting a value
outside the 32-bit signed range, the integer parse fails and the parser
falls back to quantity 1 with the entire trimmed line as the name. -/
theorem parse_overflow_fallback (line : Str)
    (_htrim : trim line = line) (_hne : line ≠ [])
    (h1 : trimEndNonDigits ((splitWS line).headD []) ≠ [])
    (h2 : (trimEndNonDigits ((splitWS line).headD [])).all Char.isDigit = true)
    (h3 : 2147483647 < digitsToNat (trimEndNonDigits ((splitWS line).headD []))) :
    parseLine line = ⟨line, 1⟩ := by
  have hn : parseI32 (trimEndNonDigits ((splitWS line).headD [])) = none := by
    rw [parseI32_all_digits h1 h2]
    exact parseDigitsSigned_false_overflow h1 h2 h3
  unfold parseLine
  rw [hn]

theorem parse_overflow_fallback_witness :
    trim ['9', '9', '9', '9', '9', '9', '9', '9', '9', '9', '9', ' ', 's', 'c', 'r', 'e', 'w', 's']
      = ['9', '9', '9', '9', '9', '9', '9', '9', '9', '9', '9', ' ', 's', 'c', 'r', 'e', 'w', 's'] ∧
    ['9', '9', '9', '9', '9', '9', '9', '9', '9', '9', '9', ' ', 's', 'c', 'r', 'e', 'w', 's'] ≠ ([] : Str) ∧
    trimEndNonDigits ((splitWS ['9', '9', '9', '9', '9', '9', '9', '9', '9', '9', '9', ' ', 's', 'c', 'r', 'e', 'w', 's']).headD []) ≠ [] ∧
    (trimEndNonDigits ((splitWS ['9', '9', '9', '9', '9', '9', '9', '9', '9', '9', '9', ' ', 's', 'c', 'r', 'e', 'w', 's']).headD [])).all Char.isDigit = true ∧
    2147483647 < digitsToNat (trimEndNonDigits ((splitWS ['9', '9', '9', '9', '9', '9', '9', '9', '9', '9', '9', ' ', 's', 'c', 'r', 'e', 'w', 's']).headD [])) ∧
    parseLine ['9', '9', '9', '9', '9', '9', '9', '9', '9', '9', '9', ' ', 's', 'c', 'r', 'e', 'w', 's']
      = ⟨['9', '9', '9', '9', '9', '9', '9', '9', '9', '9', '9', ' ', 's', 'c', 'r', 'e', 'w', 's'], 1⟩ :=
  ⟨by decide, by decide, by decide, by decide, by decide,
    parse_overflow_fallback
      ['9', '9', '9', '9', '9', '9', '9', '9', '9', '9', '9', ' ', 's', 'c', 'r', 'e', 'w', 's']
      (by decide) (by decide) (by decide) (by decide) (by decide)⟩

/-! ## Blank-line filtering -/

theorem forall_mem_dropWhile_iff {p : Char → Bool} (l : Str) :
    (∀ c ∈ l.dropWhile p, p c = true) ↔ (∀ c ∈ l, p c = true) := by
  induction l with
  | nil => simp
  | cons c cs ih =>
    by_cases h : p c = true
    · rw [List.dropWhile_cons, if_pos h]
      simp [h, ih]
    · rw [List.dropWhile_cons, if_neg h]

theorem trim_eq_nil_iff (l : Str) :
    trim l = [] ↔ l.all Char.isWhitespace = true := by
  unfold trim trimRight trimLeft
  rw [List.reverse_eq_nil_iff, List.dropWhile_eq_nil_iff, List.all_eq_true]
  constructor
  · intro h
    exact (forall_mem_dropWhile_iff l).1 (fun c hc => h c (List.mem_reverse.2 hc))
  · intro h c hc
    exact (forall_mem_dropWhile_iff l).2 h c (List.mem_reverse.1 hc)

theorem filter_trim_comm (lines : List Str) :
    (lines.map trim).filter (fun l => !l.isEmpty)
      = (lines.filter (fun l => !(l.all Char.isWhitespace))).map trim := by
  induction lines with
  | nil => rfl
  | cons l t ih =>
    simp only [List.map_cons, List.filter_cons]
    by_cases h : trim l = []
    · have hb : l.all Char.isWhitespace = true := (trim_eq_nil_iff l).1 h
      rw [h]
      simp [hb, ih]
    · have hb : l.all Char.isWhitespace = false := by
        cases hb : l.all Char.isWhitespace with
        | false => rfl
        | true => exact absurd ((trim_eq_nil_iff l).2 hb) h
      have hne : (trim l).isEmpty = false := by
        cases ht : trim l with
        | nil => exact absurd ht h
        | cons a b => rfl
      simp [hne, hb, ih]

/-- C8: blank lines and lines consisting only of whitespace are dropped
and produce no record; the parser emits exactly one record per
surviving line, and the output preserves the original order of the
surviving lines.  (`specSurvivingLines` is the spec-side description of
steps 1–2; the code trims first and then filters on emptiness, which is
proved equivalent.) -/
theorem parse_drops_blank_lines (raw : Str) :
    fakeLlmParse raw = (specSurvivingLines raw).map parseLine := by
  unfold fakeLlmParse specSurvivingLines
  rw [filter_trim_comm]

/-! ## Ledger append -/

/-- C2: appending `[A, B]` and then `[C]` to the same store yields a
store whose entries read back in order `A, B, C` after the prior
contents; a prior append's entries are preserved verbatim as a prefix
(never overwritten, removed, truncated, or reordered); and appending to
a store that does not yet exist creates it, containing exactly the new
records. -/
theorem append_preserves_and_extends (s : List Str) (A B C : Item) :
    appendItemsToCsv (appendItemsToCsv s [A, B]) [C]
      = s ++ [serializeItem A, serializeItem B, serializeItem C] ∧
    (∀ (t : List Str) (items : List Item),
      (appendItemsToCsv t items).take t.length = t) ∧
    (∀ items : List Item, appendItemsToCsv [] items = items.map serializeItem) := by
  refine ⟨by simp [appendItemsToCsv], ?_, fun items => rfl⟩
  intro t items
  exact List.take_left t (items.map serializeItem)

/-- C9: when the ledger append fails with `IOFailure`, the caller still
receives the full, uncorrupted list of parsed records — the rendered
item list equals `fakeLlmParse text` whether or not persistence
succeeded, so parsing success and persistence success are independent. -/
theorem parse_independent_of_persistence (store : List Str) (text : Str) :
    appendItemsToCsvIO false store (fakeLlmParse text) = .error .ioFailure ∧
    (handleSubmit false store text).2 = fakeLlmParse text ∧
    ∀ ok : Bool, (handleSubmit ok store text).2 = fakeLlmParse text := by
  refine ⟨rfl, rfl, ?_⟩
  intro ok
  cases ok <;> rfl

/-! ## Decimal rendering round-trips through the i32 parser -/

theorem digitChar_toNat {d : Nat} (hd : d < 10) : (Nat.digitChar d).toNat = 48 + d := by
  interval_cases d <;> decide

theorem digitChar_isDigit {d : Nat} (hd : d < 10) : (Nat.digitChar d).isDigit = true := by
  interval_cases d <;> decide

theorem digit_ne_comma {c : Char} (h : c.isDigit = true) : c ≠ ',' := by
  intro e
  rw [e] at h
  exact absurd h (by decide)

theorem foldl_digitChar :
    ∀ (l : List Nat), (∀ d ∈ l, d < 10) → ∀ (a : Nat),
      List.foldl (fun acc c => acc * 10 + (c.toNat - 48)) a ((l.map Nat.digitChar).reverse)
        = a * 10 ^ l.length + Nat.ofDigits 10 l := by
  intro l
  induction l with
  | nil => intro _ a; simp [Nat.ofDigits_nil]
  | cons d t ih =>
    intro hl a
    have hd : d < 10 := hl d (List.mem_cons_self d t)
    simp only [List.map_cons, List.reverse_cons, List.foldl_append, List.foldl_cons,
      List.foldl_nil, List.length_cons]
    rw [ih (fun x hx => hl x (List.mem_cons_of_mem d hx)) a]
    rw [digitChar_toNat hd, Nat.add_sub_cancel_left, Nat.ofDigits_cons]
    ring

theorem natToStr_ne_nil (n : Nat) : natToStr n ≠ [] := by
  unfold natToStr
  split
  · simp
  · rename_i h
    intro he
    rw [List.reverse_eq_nil_iff, List.map_eq_nil_iff] at he
    exact (Nat.digits_ne_nil_iff_ne_zero.2 h) he

theorem mem_natToStr_isDigit (n : Nat) : ∀ c ∈ natToStr n, c.isDigit = true := by
  intro c hc
  unfold natToStr at hc
  split at hc
  · rw [List.mem_singleton] at hc
    subst hc
    decide
  · rw [List.mem_reverse] at hc
    obtain ⟨d, hd, rfl⟩ := List.mem_map.1 hc
    exact digitChar_isDigit (Nat.digits_lt_base (by norm_num) hd)

theorem digitsToNat_natToStr (n : Nat) : digitsToNat (natToStr n) = n := by
  unfold natToStr
  split
  · rename_i h
    subst h
    decide
  · unfold digitsToNat
    rw [foldl_digitChar (Nat.digits 10 n)
      (fun d hd => Nat.digits_lt_base (by norm_num) hd) 0]
    simp [Nat.ofDigits_digits]

theorem parseDigitsSigned_true_digits {l : Str} (h1 : l ≠ [])
    (h2 : l.all Char.isDigit = true) (h3 : digitsToNat l ≤ 2147483648) :
    parseDigitsSigned true l = some (-(digitsToNat l : Int)) := by
  unfold parseDigitsSigned
  rw [if_neg h1, if_pos h2]
  have hr : -2147483648 ≤ (-(digitsToNat l : Int)) ∧ (-(digitsToNat l : Int)) ≤ 2147483647 := by
    constructor <;> omega
  simp [hr]

theorem parseI32_natToStr (n : Nat) (h : n ≤ 2147483647) :
    parseI32 (natToStr n) = some (n : Int) := by
  have h1 := natToStr_ne_nil n
  have h2 : (natToStr n).all Char.isDigit = true :=
    List.all_eq_true.2 (mem_natToStr_isDigit n)
  rw [parseI32_all_digits h1 h2,
    parseDigitsSigned_false_digits h1 h2 (by rw [digitsToNat_natToStr]; exact h),
    digitsToNat_natToStr]

theorem parseI32_intToStr (q : Int) (h1 : -2147483648 ≤ q) (h2 : q ≤ 2147483647) :
    parseI32 (intToStr q) = some q := by
  unfold intToStr
  by_cases hq : q < 0
  · rw [if_pos hq]
    have hne := natToStr_ne_nil q.natAbs
    have hall : (natToStr q.natAbs).all Char.isDigit = true :=
      List.all_eq_true.2 (mem_natToStr_isDigit _)
    rw [show parseI32 ('-' :: natToStr q.natAbs)
          = parseDigitsSigned true (natToStr q.natAbs) from by simp [parseI32]]
    rw [parseDigitsSigned_true_digits hne hall (by rw [digitsToNat_natToStr]; omega),
      digitsToNat_natToStr]
    congr 1
    omega
  · rw [if_neg hq]
    rw [parseI32_natToStr q.toNat (by omega)]
    congr 1
    omega

theorem mem_intToStr_ne_comma (q : Int) : ∀ c ∈ intToStr q, c ≠ ',' := by
  intro c hc
  unfold intToStr at hc
  split at hc
  · rcases List.mem_cons.1 hc with rfl | hc2
    · decide
    · exact digit_ne_comma (mem_natToStr_isDigit _ c hc2)
  · exact digit_ne_comma (mem_natToStr_isDigit _ c hc)

theorem splitFirstComma_append (a b : Str) (ha : ∀ c ∈ a, c ≠ ',') :
    splitFirstComma (a ++ ',' :: b) = some (a, b) := by
  induction a with
  | nil => simp [splitFirstComma]
  | cons c t ih =>
    have hc : c ≠ ',' := ha c (List.mem_cons_self c t)
    simp only [List.cons_append, splitFirstComma, if_neg hc, List.append_eq]
    rw [ih (fun d hd => ha d (List.mem_cons_of_mem c hd))]

theorem deserialize_serialize (it : Item) (hname : ∀ c ∈ it.name, c ≠ ',')
    (h1 : -2147483648 ≤ it.quantity) (h2 : it.quantity ≤ 2147483647) :
    deserializeLine (serializeItem it) = some (it.quantity, it.name) := by
  unfold serializeItem deserializeLine
  simp only [splitFirstComma_append _ _ (mem_intToStr_ne_comma it.quantity),
    parseI32_intToStr it.quantity h1 h2]

/-- C4: for every store and every sequence of records whose names
contain no comma (and whose quantities, being `i32` values, lie in the
32-bit signed range), serializing the records via append and then
deserializing the newly appended lines by splitting each one as
`<quantity><delimiter><name>` reconstructs exactly the same ordered
`(quantity, name)` pairs. -/
theorem csv_roundtrip (store : List Str) (items : List Item)
    (h : ∀ it ∈ items, (∀ c ∈ it.name, c ≠ ',') ∧
      -2147483648 ≤ it.quantity ∧ it.quantity ≤ 2147483647) :
    ((appendItemsToCsv store items).drop store.length).map deserializeLine
      = items.map (fun it => some (it.quantity, it.name)) := by
  unfold appendItemsToCsv
  rw [List.drop_left, List.map_map]
  refine List.map_congr_left ?_
  intro it hit
  obtain ⟨hn, hr1, hr2⟩ := h it hit
  simpa [Function.comp] using deserialize_serialize it hn hr1 hr2

theorem csv_roundtrip_witness :
    (∀ it ∈ [Item.mk ['s', 'c', 'r', 'e', 'w'] 3, Item.mk ['p', 'a', 'i', 'n', 't'] (-2)],
      (∀ c ∈ it.name, c ≠ ',') ∧
      -2147483648 ≤ it.quantity ∧ it.quantity ≤ 2147483647) ∧
    ((appendItemsToCsv [] [Item.mk ['s', 'c', 'r', 'e', 'w'] 3,
        Item.mk ['p', 'a', 'i', 'n', 't'] (-2)]).drop ([] : List Str).length).map deserializeLine
      = [Item.mk ['s', 'c', 'r', 'e', 'w'] 3, Item.mk ['p', 'a', 'i', 'n', 't'] (-2)].map
          (fun it => some (it.quantity, it.name)) :=
  ⟨by decide, csv_roundtrip []
    [Item.mk ['s', 'c', 'r', 'e', 'w'] 3, Item.mk ['p', 'a', 'i', 'n', 't'] (-2)]
    (by decide)⟩

end InventoryTracker
